import Mathlib

/-!
Verification development for the `delaunator-rs` fork (2D Delaunay
triangulation via sweep-hull).

Embedding conventions, shared by all definitions below:

* Scalar coordinates (`T = f64` in the source) are modelled by exact
  rationals `ℚ`.  All arithmetic the algorithm performs on in-range
  values (add, sub, mul, div, compare, abs, min, max) is exact here;
  floating-point rounding and overflow are not modelled.
* The source's IEEE non-finite values (`T::infinity()`, NaN) appear only
  as loop-accumulator sentinels and in the unguarded division of
  `circumdelta`.  They are modelled by `Option`: `none` stands for "the
  value is not a finite number", which in every comparison of the source
  (`d < min_dist`, `r < min_radius`) loses exactly as the IEEE value
  does.  Each such spot carries a comment naming the source behaviour.
* Rust `usize` values are modelled by `ℕ`; `usize::max_value()` is the
  explicit constant `usizeMax = 2 ^ 64 - 1` where its sentinel role
  matters (`OptionIndex`).
* Rust panics (indexing out of bounds, `Option::unwrap` on `None`) and
  fuel exhaustion of the model's bounded loops are recorded by an `ok`
  flag in the builder state: any execution in which the source would
  panic (or in which the model ran out of fuel) ends with `ok = false`.
-/

/- `Batteries` marks the four core rational operations `@[irreducible]`,
which blocks `decide`/`rfl` evaluation of the executable definitions
below on concrete inputs.  Restore the default reducibility for this
file: the kernel itself never respects `@[irreducible]`, so this only
lets the elaborator perform the same reductions the kernel accepts. -/
attribute [local semireducible] Rat.add Rat.mul Rat.inv Rat.sub

namespace Delaunator

/-- Models `f64::min` on finite values, written so that it reduces in the
kernel (equal to `min` on `ℚ`, see `qmin_eq_min`). -/
def qmin (a b : ℚ) : ℚ := if a ≤ b then a else b

/-- Models `f64::max` on finite values (equal to `max` on `ℚ`, see
`qmax_eq_max`). -/
def qmax (a b : ℚ) : ℚ := if b ≤ a then a else b

/-- Models `f64::abs` on finite values (equal to `|·|` on `ℚ`, see
`qabs_eq_abs`). -/
def qabs (a : ℚ) : ℚ := if a < 0 then -a else a

/-- A 2D point with exact rational coordinates.  Models `Point<T>` from
`src/point.rs` at `T = f64` under the exact-arithmetic idealization
described in the file header. -/
structure Point where
  x : ℚ
  y : ℚ
deriving DecidableEq, Repr

instance : Inhabited Point := ⟨⟨0, 0⟩⟩

/-- Componentwise addition (`impl Add for Point`, `src/point.rs`). -/
instance : Add Point := ⟨fun p q => ⟨p.x + q.x, p.y + q.y⟩⟩

/-- Componentwise subtraction (`impl Sub for Point`, `src/point.rs`). -/
instance : Sub Point := ⟨fun p q => ⟨p.x - q.x, p.y - q.y⟩⟩

/-- Scalar multiplication (`impl Mul<T> for Point`, `src/point.rs`). -/
instance : HMul Point ℚ Point := ⟨fun p s => ⟨p.x * s, p.y * s⟩⟩

/-- Models `Point::length_squared` (`src/point.rs`). -/
def Point.length_squared (p : Point) : ℚ := p.x * p.x + p.y * p.y

/-- Models `Point::perp`: rotation by 90 degrees (`src/point.rs`). -/
def Point.perp (p : Point) : Point := ⟨-p.y, p.x⟩

/-- Models `Point::perp_dot`: the perpendicular dot (cross) product
(`src/point.rs`). -/
def Point.perp_dot (p q : Point) : ℚ := p.x * q.y - p.y * q.x

/-- Models `Point::distance_squared` (`src/point.rs`). -/
def Point.distance_squared (p q : Point) : ℚ := (p - q).length_squared

/-- Models `Point::is_clockwise`: tests whether the path `self → q → r` turns
clockwise in a right-handed coordinate system (`src/point.rs`):
`(r - q).perp_dot(q - self) > 0`. -/
def Point.is_clockwise (p q r : Point) : Bool :=
  decide (0 < (r - q).perp_dot (q - p))

/-- Models `Point::circumdelta` (`src/point.rs`): offset from `self` to the
circumcenter of `self, b, c`.  The source divides by `d.perp_dot(e)`
without a guard; this total version is only ever used (for circumcenter
and for the finite branch of `circumradius_squared?`) on non-collinear
triples, where the divisor is nonzero. -/
def Point.circumdelta (self b c : Point) : Point :=
  let d := b - self
  let e := c - self
  let bl := d.length_squared
  let cl := e.length_squared
  let k : ℚ := (1 / 2) / d.perp_dot e
  (d * cl - e * bl).perp * k

/-- Models `Point::circumradius_squared` (`src/point.rs`) as the source writes
it: `circumdelta(b, c).length_squared()`. -/
def Point.circumradius_squared (self b c : Point) : ℚ :=
  (self.circumdelta b c).length_squared

/-- Models `Point::circumradius_squared`, with the IEEE behaviour of the
unguarded division made explicit: when `d.perp_dot(e) = 0` (collinear
triple) the source computes `0.5 / 0.0` giving a non-finite `k`, and the
resulting squared radius is `+inf` or NaN — a value that never satisfies
`r < min_radius` in `find_seed_triangle`.  That non-finite outcome is
modelled as `none`. -/
def Point.circumradius_squared? (self b c : Point) : Option ℚ :=
  if (b - self).perp_dot (c - self) = 0 then none
  else some (self.circumradius_squared b c)

/-- Models `Point::circumcenter` (`src/point.rs`): `self + circumdelta`. -/
def Point.circumcenter (self b c : Point) : Point :=
  self + self.circumdelta b c

/-- The quantity `Point::is_in_circle` (`src/point.rs`) compares
against zero: the expansion of the 3×3 in-circle determinant. -/
def inCircleDet (self a b c : Point) : ℚ :=
  let d := a - self
  let e := b - self
  let f := c - self
  let ap := d.length_squared
  let bp := e.length_squared
  let cp := f.length_squared
  let g := e * cp - f * bp
  d.perp_dot g + ap * e.perp_dot f

/-- Models `Point::is_in_circle` (`src/point.rs`): the 3×3 in-circle
determinant expansion, strict comparison against zero. -/
def Point.is_in_circle (self a b c : Point) : Bool :=
  decide (0 < inCircleDet self a b c)

/-- Models `f64::EPSILON` as an exact rational: `2 ^ (-52)`. -/
def f64Epsilon : ℚ := 1 / 2 ^ 52

/-- Models `ApproxEq::approx_eq` for `f64` (`src/traits.rs`): tolerance
`2.0 * f64::EPSILON` per value. -/
def approx_eq (a b : ℚ) : Bool := decide (qabs (a - b) ≤ 2 * f64Epsilon)

/-- Models `Point::nearly_equals` (`src/point.rs`): per-coordinate
`approx_eq`. -/
def Point.nearly_equals (p q : Point) : Bool :=
  approx_eq p.x q.x && approx_eq p.y q.y

/-! ## `OptionIndex` (`src/util.rs`)

The source file `src/util.rs` defines the packed optional index over
`usize` with `usize::max_value()` as the absent sentinel. -/

/-- Models `usize::max_value()` on a 64-bit target. -/
def usizeMax : ℕ := 2 ^ 64 - 1

/-- Models `OptionIndex` (`src/util.rs`): a `usize` wrapper whose value
`usize::max_value()` denotes the absent index.  The wrapped `ℕ` models
a `usize`, so meaningful values are `< 2 ^ 64`. -/
structure OptionIndex where
  val : ℕ
deriving DecidableEq, Repr

/-- Models `OptionIndex::new` (`src/util.rs`): `None` exactly at the
sentinel. -/
def OptionIndex.new (n : ℕ) : Option OptionIndex :=
  if n = usizeMax then none else some ⟨n⟩

/-- Models `OptionIndex::none` (`src/util.rs`). -/
def OptionIndex.noneIdx : OptionIndex := ⟨usizeMax⟩

/-- Models `OptionIndex::is_none` (`src/util.rs`). -/
def OptionIndex.is_none (o : OptionIndex) : Bool := decide (o.val = usizeMax)

/-- Models `OptionIndex::is_some` (`src/util.rs`). -/
def OptionIndex.is_some (o : OptionIndex) : Bool := !o.is_none

/-- Models `OptionIndex::get` (`src/util.rs`): unpack into a real option. -/
def OptionIndex.get (o : OptionIndex) : Option ℕ :=
  if o.val = usizeMax then none else some o.val

/-- Models `impl From<usize> for OptionIndex` (`src/util.rs`): wraps the raw
value with no sentinel check, so `usize::max_value()` silently becomes
the absent value. -/
def OptionIndex.fromUsize (n : ℕ) : OptionIndex := ⟨n⟩

/-- Models `next_halfedge` (`src/util.rs`). -/
def next_halfedge (i : ℕ) : ℕ := if i % 3 = 2 then i - 2 else i + 1

/-- Models `prev_halfedge` (`src/util.rs`). -/
def prev_halfedge (i : ℕ) : ℕ := if i % 3 = 0 then i + 2 else i - 1

/-! ## Seed selection (`src/util.rs`)

The input slice `&[P]` with `P: HasPosition<T>` is instantiated at
`P = Point` (whose `pos()` is the identity, `src/traits.rs`), so the
input is a `List Point`.  Slice indexing `points[i]` is modelled by
`getP`; every call site below indexes with a bound returned by an
earlier search over the same list, which the theorems show to be in
range. -/

/-- Models `points[i]` on the input slice.  Rust panics when out of range; all
uses below are in range (established where needed), so the default value
is never observed by the theorems. -/
def getP (points : List Point) (i : ℕ) : Point := points.getD i ⟨0, 0⟩

/-- Models `calc_bbox_center` (`src/util.rs`): center of the bounding box.  The
source folds `min`/`max` starting from `±infinity`; for a nonempty list
this equals folding from the first element (done here), and for the
empty list the source center is `(NaN, NaN)` — a point at no positive
finite distance from anything — modelled as `none`. -/
def calc_bbox_center (points : List Point) : Option Point :=
  match points with
  | [] => none
  | p :: ps =>
    let min_x := ps.foldl (fun m q => qmin m q.x) p.x
    let min_y := ps.foldl (fun m q => qmin m q.y) p.y
    let max_x := ps.foldl (fun m q => qmax m q.x) p.x
    let max_y := ps.foldl (fun m q => qmax m q.y) p.y
    some ⟨(min_x + max_x) / 2, (min_y + max_y) / 2⟩

/-- One iteration of the `find_closest_point` loop (`src/util.rs`).  The
accumulator `none` models the initial state `min_dist = infinity` (with
`k = 0` never returned); `some (k, m)` models `min_dist = m` attained
first at index `k`.  The source guard is `d > 0.0 && d < min_dist`, and
`d < infinity` always holds for the exact distances of finite points. -/
def fcpStep (p0 : Point) (acc : Option (ℕ × ℚ)) (ip : ℕ × Point) :
    Option (ℕ × ℚ) :=
  let d := p0.distance_squared ip.2
  match acc with
  | none => if 0 < d then some (ip.1, d) else none
  | some (k, m) => if 0 < d ∧ d < m then some (ip.1, d) else some (k, m)

/-- Models `find_closest_point` (`src/util.rs`): index of the point closest to
`p0` among those at positive distance, earliest index on ties; `none`
when every point is at distance zero (`min_dist` stays `infinity`). -/
def find_closest_point (points : List Point) (p0 : Point) : Option ℕ :=
  (points.enum.foldl (fcpStep p0) none).map (fun km => km.1)

/-- One iteration of the third-point loop of `find_seed_triangle`
(`src/util.rs`): skip `i0`, `i1`; a non-finite circumradius (collinear
candidate, `circumradius_squared? = none`) never satisfies
`r < min_radius` and leaves the accumulator unchanged. -/
def fstStep (p0 p1 : Point) (i0 i1 : ℕ) (acc : Option (ℕ × ℚ))
    (ip : ℕ × Point) : Option (ℕ × ℚ) :=
  if ip.1 = i0 ∨ ip.1 = i1 then acc
  else
    match p0.circumradius_squared? p1 ip.2 with
    | none => acc
    | some r =>
      match acc with
      | none => some (ip.1, r)
      | some (k, m) => if r < m then some (ip.1, r) else some (k, m)

/-- Models `find_seed_triangle` (`src/util.rs`): bounding-box center → closest
point `i0` → closest point `i1` to it → third point `i2` minimizing the
circumradius; `none` when any search fails; final swap of `i1`/`i2` for
counter-clockwise orientation. -/
def find_seed_triangle (points : List Point) : Option (ℕ × ℕ × ℕ) :=
  match calc_bbox_center points with
  | none => none
  | some bbox_center =>
  match find_closest_point points bbox_center with
  | none => none
  | some i0 =>
  let p0 := getP points i0
  match find_closest_point points p0 with
  | none => none
  | some i1 =>
  let p1 := getP points i1
  match points.enum.foldl (fstStep p0 p1 i0 i1) none with
  | none => none
  | some ki =>
    if p0.is_clockwise p1 (getP points ki.1) then some (i0, ki.1, i1)
    else some (i0, i1, ki.1)

/-! ## Hull helpers (`src/hull.rs`) -/

/-- Models `pseudo_angle` (`src/hull.rs`): monotone-in-angle surrogate in
`[0, 1)`.  At `p = 0` the source computes `0.0 / 0.0 = NaN`, which then
propagates; that case is modelled as `none` (the sole caller `hash_key`
maps it to bucket 0 exactly as `NaN as usize = 0` does in Rust). -/
def pseudo_angle? (p : Point) : Option ℚ :=
  if qabs p.x + qabs p.y = 0 then none
  else
    let k := p.x / (qabs p.x + qabs p.y)
    some ((if 0 < p.y then 3 - k else 1 + k) / 4)

/-- Rust `expr as usize` on a nonnegative finite float: truncation
toward zero (the only values cast in `hash_key` are in `[0, len)`). -/
def f64AsUsize (q : ℚ) : ℕ := (q.num / (q.den : ℤ)).toNat

/-- Models `⌊√n⌋`, the hash size `(n as f64).sqrt() as usize` of `Hull::new`
(`src/hull.rs`), as a structural computation (counting the positive `k`
with `k² ≤ n`) so that it evaluates in the kernel; agrees with
`Nat.sqrt` by `floorSqrt_eq_sqrt`. -/
def floorSqrt (n : ℕ) : ℕ :=
  (List.range n).countP (fun k => decide ((k + 1) * (k + 1) ≤ n))

/-! ## Builder state (`src/triangulation.rs` and `src/hull.rs`)

`BuildState` merges the fields of `Triangulation` (the three output
vectors) with the fields of the auxiliary `Hull` struct (`prev`, `next`,
`tri`, `hash`, `start`, `center`), which in the source live side by side
for the duration of one `with_seed_triangle` call.  The index type
parameter `I` is instantiated at `usize` (so `I::from_usize` and
`as_usize` are identities and `OptionIndex<I>` entries are plain
optional naturals).  The extra `ok` flag is the panic/fuel tracker
described in the file header.

Reads of the hull-side arrays (`prev`, `next`, `tri`, `hash`) are
written `getD … none`: an out-of-range read (a Rust index panic, which
never happens for the point indices `< n` used here) is conflated with
a present absent entry.  Wherever the source immediately `unwrap`s such
a read, the conflation is harmless — both out-of-range and absent end
in `unwrapIdx`'s panic branch; the remaining `getD` reads (`tri[…]`
passed to `add_triangle`, the `tri[v]` comparison in `swap_halfedge`,
the probe's bucket reads, which are reduced modulo the hash length)
take in-range indices on every execution the theorems below touch. -/

structure BuildState where
  triangles : Array ℕ
  halfedges : Array (Option ℕ)
  hull : Array ℕ
  hullPrev : Array (Option ℕ)
  hullNext : Array (Option ℕ)
  hullTri : Array (Option ℕ)
  hash : Array (Option ℕ)
  hullStart : ℕ
  center : Point
  ok : Bool
deriving DecidableEq, Repr

/-- Record that the source would have panicked here (or that a fuel
bound of the model was hit).  `ok` is never reset to `true`. -/
def BuildState.panic (st : BuildState) : BuildState := { st with ok := false }

/-- Read `points[i]` with panic tracking (Rust slice indexing). -/
def readPt (points : List Point) (i : ℕ) (st : BuildState) :
    Point × BuildState :=
  match points[i]? with
  | some p => (p, st)
  | none => (⟨0, 0⟩, st.panic)

/-- Read `self.triangles[i]` with panic tracking. -/
def readTri (st : BuildState) (i : ℕ) : ℕ × BuildState :=
  match st.triangles[i]? with
  | some v => (v, st)
  | none => (0, st.panic)

/-- Read `self.halfedges[i]` with panic tracking. -/
def readHE (st : BuildState) (i : ℕ) : Option ℕ × BuildState :=
  match st.halfedges[i]? with
  | some v => (v, st)
  | none => (none, st.panic)

/-- Models `OptionIndex::unwrap` (`src/util.rs`): panics on the absent
value. -/
def unwrapIdx (v : Option ℕ) (st : BuildState) : ℕ × BuildState :=
  match v with
  | some x => (x, st)
  | none => (0, st.panic)

/-- In-bounds array update; `none` when the index is out of range (a
Rust index panic at the call sites below). -/
def writeArr {α : Type} (xs : Array α) (i : ℕ) (v : α) : Option (Array α) :=
  if h : i < xs.size then some (xs.set ⟨i, h⟩ v) else none

/-- Models `self.triangles[i] = v` with panic tracking. -/
def BuildState.setTriangle (st : BuildState) (i : ℕ) (v : ℕ) : BuildState :=
  match writeArr st.triangles i v with
  | some a => { st with triangles := a }
  | none => st.panic

/-- Models `self.halfedges[i] = v` with panic tracking. -/
def BuildState.setHE (st : BuildState) (i : ℕ) (v : Option ℕ) : BuildState :=
  match writeArr st.halfedges i v with
  | some a => { st with halfedges := a }
  | none => st.panic

/-- Models `hull.prev[i] = v` with panic tracking. -/
def BuildState.setPrev (st : BuildState) (i : ℕ) (v : Option ℕ) : BuildState :=
  match writeArr st.hullPrev i v with
  | some a => { st with hullPrev := a }
  | none => st.panic

/-- Models `hull.next[i] = v` with panic tracking. -/
def BuildState.setNext (st : BuildState) (i : ℕ) (v : Option ℕ) : BuildState :=
  match writeArr st.hullNext i v with
  | some a => { st with hullNext := a }
  | none => st.panic

/-- Models `hull.tri[i] = v` with panic tracking. -/
def BuildState.setTri (st : BuildState) (i : ℕ) (v : Option ℕ) : BuildState :=
  match writeArr st.hullTri i v with
  | some a => { st with hullTri := a }
  | none => st.panic

/-- Models `Hull::hash_key` (`src/hull.rs`):
`((len as f32 * pseudo_angle(p - center)) as usize) % len`.  The NaN
case (`p = center`) casts to 0 in Rust, modelled by the `none` branch.
(When `len = 0` the source `%` panics; the builder only creates the
hash for `n ≥ 3` points, so `len = ⌊√n⌋ ≥ 1`.) -/
def BuildState.hash_key (st : BuildState) (p : Point) : ℕ :=
  let len := st.hash.size
  match pseudo_angle? (p - st.center) with
  | none => 0
  | some a => f64AsUsize ((len : ℚ) * a) % len

/-- Models `Hull::hash_edge` (`src/hull.rs`): overwrite the bucket of `p` with
vertex `i`. -/
def BuildState.hash_edge (st : BuildState) (p : Point) (i : ℕ) : BuildState :=
  match writeArr st.hash (st.hash_key p) (some i) with
  | some a => { st with hash := a }
  | none => st.panic

/-- The hash-probe loop of `Hull::find_visible_edge` (`src/hull.rs`):
`start` takes the value of each bucket `hash[(key + j) % len]` in turn,
stopping at the first entry that is present and whose `next` link is
present (a vertex still on the hull); after `len` fruitless iterations
the last bucket value (possibly absent) is kept.  `rem` counts the
remaining iterations, `j` the current offset, `cur` the current
`start`. -/
def probeHash (st : BuildState) (key len : ℕ) :
    ℕ → ℕ → Option ℕ → Option ℕ
  | 0, _, cur => cur
  | rem + 1, j, _ =>
    let cur := st.hash.getD ((key + j) % len) none
    if (cur.bind (fun x => st.hullNext.getD x none)).isSome then cur
    else probeHash st key len rem (j + 1) cur

/-- The hull walk of `Hull::find_visible_edge` (`src/hull.rs`): advance
`e` along `next` links while the edge `e → next[e]` is not visible from
`p`; report `(none, false)` when the walk returns to its start, and
`(some e, e = start)` at the first visible edge.  Fuel exhaustion (the
source would still be walking) sets the panic flag. -/
def visibleWalk (points : List Point) (p : Point) (start : ℕ) :
    ℕ → ℕ → BuildState → (Option ℕ × Bool) × BuildState
  | 0, _, st => ((none, false), st.panic)
  | fuel + 1, e, st =>
    let (pe, st) := readPt points e st
    let (ne, st) := unwrapIdx (st.hullNext.getD e none) st
    let (pn, st) := readPt points ne st
    if p.is_clockwise pe pn then ((some e, decide (e = start)), st)
    else if ne = start then ((none, false), st)
    else visibleWalk points p start fuel ne st

/-- Models `Hull::find_visible_edge` (`src/hull.rs`): probe the angular hash
for a live hull vertex, step once backward along `prev` (hash lag), then
walk forward to the first edge visible from `p`. -/
def BuildState.find_visible_edge (st : BuildState) (p : Point)
    (points : List Point) : (Option ℕ × Bool) × BuildState :=
  let key := st.hash_key p
  let len := st.hash.size
  let start? := probeHash st key len len 0 none
  let (s0, st) := unwrapIdx start? st
  let (s1, st) := unwrapIdx (st.hullPrev.getD s0 none) st
  visibleWalk points p s1 (points.length + 1) s1 st

/-- The loop of `Hull::swap_halfedge` (`src/hull.rs`): walk `prev` links
from `start` until a vertex whose `tri` entry equals `fromE` is found
(patch it to `toE`), stopping after a full circumnavigation. -/
def swapWalk (fromE toE : ℕ) : ℕ → ℕ → BuildState → BuildState
  | 0, _, st => st.panic
  | fuel + 1, v, st =>
    if st.hullTri.getD v none = some fromE then st.setTri v (some toE)
    else
      let (pv, st) := unwrapIdx (st.hullPrev.getD v none) st
      if pv = st.hullStart then st else swapWalk fromE toE fuel pv st

/-- Models `Hull::swap_halfedge` (`src/hull.rs`). -/
def BuildState.swap_halfedge (st : BuildState) (fromE toE : ℕ) : BuildState :=
  swapWalk fromE toE (st.hullPrev.size + 1) st.hullStart st

/-- Models `Triangulation::add_triangle` (`src/triangulation.rs`): push three
point indices and three twin slots, then patch the back-pointers of the
present twins. -/
def BuildState.add_triangle (st : BuildState) (i0 i1 i2 : ℕ)
    (a b c : Option ℕ) : BuildState × ℕ :=
  let t := st.triangles.size
  let st := { st with
    triangles := ((st.triangles.push i0).push i1).push i2,
    halfedges := ((st.halfedges.push a).push b).push c }
  let st := match a with | some ai => st.setHE ai (some t) | none => st
  let st := match b with | some bi => st.setHE bi (some (t + 1)) | none => st
  let st := match c with | some ci => st.setHE ci (some (t + 2)) | none => st
  (st, t)

/-- Models `Triangulation::legalize` (`src/triangulation.rs`): recursive edge
flipping restoring the Delaunay condition around edge `a`; returns the
edge that replaces `a` in the caller's bookkeeping.  The recursion is
bounded by `fuel` (the source recursion is believed finite; running out
of fuel sets the panic flag). -/
def legalize (points : List Point) : ℕ → BuildState → ℕ → BuildState × ℕ
  | 0, st, a => (st.panic, prev_halfedge a)
  | fuel + 1, st, a =>
    let ar := prev_halfedge a
    let (bOpt, st) := readHE st a
    match bOpt with
    | none => (st, ar)
    | some b =>
      let al := next_halfedge a
      let bl := prev_halfedge b
      let (p0, st) := readTri st ar
      let (pr, st) := readTri st a
      let (pl, st) := readTri st al
      let (p1, st) := readTri st bl
      let (q1, st) := readPt points p1 st
      let (q0, st) := readPt points p0 st
      let (qr, st) := readPt points pr st
      let (ql, st) := readPt points pl st
      if q1.is_in_circle q0 qr ql then
        let st := st.setTriangle a p1
        let st := st.setTriangle b p0
        let (hbl, st) := readHE st bl
        let (har, st) := readHE st ar
        let st := if hbl = none then st.swap_halfedge bl a else st
        let st := st.setHE a hbl
        let st := st.setHE b har
        let st := st.setHE ar (some bl)
        let st := match hbl with | some h => st.setHE h (some a) | none => st
        let st := match har with | some h => st.setHE h (some b) | none => st
        let st := st.setHE bl (some ar)
        let br := next_halfedge b
        let (st, _) := legalize points fuel st a
        legalize points fuel st br
      else (st, ar)

/-- Recursion bound handed to `legalize`; generous enough that it is
never reached on the concrete inputs evaluated below (reaching it would
set the panic flag, falsifying the `ok = true` conclusions). -/
def legalFuel (points : List Point) : ℕ :=
  100 * (points.length + 1) * (points.length + 1)

/-- The forward hull walk of `Triangulation::with_seed_triangle`
(`src/triangulation.rs`, "walk forward through the hull"): starting at
`n`, add a triangle over each edge visible from `p`, legalize, and
unlink the absorbed vertex. -/
def forwardWalk (points : List Point) (i : ℕ) (p : Point) :
    ℕ → ℕ → BuildState → BuildState × ℕ
  | 0, n, st => (st.panic, n)
  | fuel + 1, n, st =>
    let (q, st) := unwrapIdx (st.hullNext.getD n none) st
    let (pn, st) := readPt points n st
    let (pq, st) := readPt points q st
    if ¬ p.is_clockwise pn pq then (st, n)
    else
      let (st, t) := st.add_triangle n i q (st.hullTri.getD i none) none
        (st.hullTri.getD n none)
      let (st, le) := legalize points (legalFuel points) st (t + 2)
      let st := st.setTri i (some le)
      let st := st.setNext n none
      forwardWalk points i p fuel q st

/-- The backward hull walk of `Triangulation::with_seed_triangle`
(`src/triangulation.rs`, "walk backward from the other side"). -/
def backwardWalk (points : List Point) (i : ℕ) (p : Point) :
    ℕ → ℕ → BuildState → BuildState × ℕ
  | 0, e, st => (st.panic, e)
  | fuel + 1, e, st =>
    let (q, st) := unwrapIdx (st.hullPrev.getD e none) st
    let (pq, st) := readPt points q st
    let (pe, st) := readPt points e st
    if ¬ p.is_clockwise pq pe then (st, e)
    else
      let (st, t) := st.add_triangle q i e none (st.hullTri.getD e none)
        (st.hullTri.getD q none)
      let (st, _) := legalize points (legalFuel points) st (t + 2)
      let st := st.setTri q (some t)
      let st := st.setNext e none
      backwardWalk points i p fuel q st

/-- The insertion loop of `Triangulation::with_seed_triangle`
(`src/triangulation.rs`), structurally recursive over the radially
sorted index list.  `prevP` is the point of the previous sorted entry
(`points[dists[k - 1].0]`), absent at `k = 0`. -/
def insertLoop (points : List Point) (i0 i1 i2 : ℕ) :
    List (ℕ × ℚ) → Option Point → BuildState → BuildState
  | [], _, st => st
  | (i, _) :: rest, prevP, st =>
    let (p, st) := readPt points i st
    if (match prevP with | some q => p.nearly_equals q | none => false) then
      insertLoop points i0 i1 i2 rest (some p) st
    else if i = i0 ∨ i = i1 ∨ i = i2 then
      insertLoop points i0 i1 i2 rest (some p) st
    else
      let (ew, st) := st.find_visible_edge p points
      match ew.1 with
      | none => insertLoop points i0 i1 i2 rest (some p) st
      | some e0 =>
        let walk_back := ew.2
        let (ne, st) := unwrapIdx (st.hullNext.getD e0 none) st
        let (st, t) := st.add_triangle e0 i ne none none
          (st.hullTri.getD e0 none)
        let (st, le) := legalize points (legalFuel points) st (t + 2)
        let st := st.setTri i (some le)
        let st := st.setTri e0 (some t)
        let (n1, st) := unwrapIdx (st.hullNext.getD e0 none) st
        let (st, nF) := forwardWalk points i p (points.length + 1) n1 st
        let (st, e1) :=
          if walk_back then backwardWalk points i p (points.length + 1) e0 st
          else (st, e0)
        let st := st.setPrev i (some e1)
        let st := st.setNext i (some nF)
        let st := st.setPrev nF (some i)
        let st := st.setNext e1 (some i)
        let st := { st with hullStart := e1 }
        let st := st.hash_edge p i
        let (pe1, st) := readPt points e1 st
        let st := st.hash_edge pe1 e1
        insertLoop points i0 i1 i2 rest (some p) st

/-- The hull-extraction loop of `Triangulation::with_seed_triangle`
(`src/triangulation.rs`): follow `next` links from `start`, pushing each
vertex, until the cycle closes. -/
def hullLoop : ℕ → ℕ → BuildState → BuildState
  | 0, _, st => st.panic
  | fuel + 1, e, st =>
    let st := { st with hull := st.hull.push e }
    let (e2, st) := unwrapIdx (st.hullNext.getD e none) st
    if e2 = st.hullStart then st else hullLoop fuel e2 st

/-- The radial sort of `with_seed_triangle`:
`dists.sort_unstable_by(partial compare on the distance)`.  For the
slice lengths our theorems evaluate (below Rust's pdqsort insertion-sort
threshold) `sort_unstable_by` is insertion sort, which never reorders
equal keys; `List.insertionSort` with `≤` on the exact rational keys has
the same behaviour, and the comparator never sees a NaN because the keys
of finite points are finite. -/
def sortDists (l : List (ℕ × ℚ)) : List (ℕ × ℚ) :=
  l.insertionSort (fun a b => a.2 ≤ b.2)

/-- Models `Triangulation::with_seed_triangle` (`src/triangulation.rs`)
instantiated at `I = usize`, `P = Point`: seed triangle, radial sort,
`Hull::new`, insertion loop, hull extraction.  `Triangulation::alloc`
only pre-reserves capacity, so the output vectors start empty; the
`Hull::new` field initialisation (`src/hull.rs`) is inlined where the
source constructs the hull. -/
def with_seed_triangle (points : List Point) (seed : ℕ × ℕ × ℕ) :
    BuildState :=
  let n := points.length
  let (i0, i1, i2) := seed
  let center := (getP points i0).circumcenter (getP points i1) (getP points i2)
  let st : BuildState :=
    { triangles := #[], halfedges := #[], hull := #[],
      hullPrev := Array.mkArray n none, hullNext := Array.mkArray n none,
      hullTri := Array.mkArray n none,
      hash := Array.mkArray (floorSqrt n) none,
      hullStart := i0, center := center, ok := true }
  let (st, _) := st.add_triangle i0 i1 i2 none none none
  let dists :=
    sortDists (points.enum.map (fun ip => (ip.1, center.distance_squared ip.2)))
  let st := st.setNext i0 (some i1)
  let st := st.setPrev i2 (some i1)
  let st := st.setNext i1 (some i2)
  let st := st.setPrev i0 (some i2)
  let st := st.setNext i2 (some i0)
  let st := st.setPrev i1 (some i0)
  let st := st.setTri i0 (some 0)
  let st := st.setTri i1 (some 1)
  let st := st.setTri i2 (some 2)
  let (q0, st) := readPt points i0 st
  let st := st.hash_edge q0 i0
  let (q1, st) := readPt points i1 st
  let st := st.hash_edge q1 i1
  let (q2, st) := readPt points i2 st
  let st := st.hash_edge q2 i2
  let st := insertLoop points i0 i1 i2 dists none st
  hullLoop (n + 1) st.hullStart st

/-- The public output record (`Triangulation` struct,
`src/triangulation.rs`, without the optional `vertices` feature),
together with the model's panic/fuel flag. -/
structure TriOutput where
  triangles : Array ℕ
  halfedges : Array (Option ℕ)
  hull : Array ℕ
  ok : Bool
deriving DecidableEq, Repr

/-- Models `Triangulation::new` (`src/triangulation.rs`): `None` exactly when
`find_seed_triangle` fails; otherwise the result of
`with_seed_triangle`. -/
def Triangulation.new (points : List Point) : Option TriOutput :=
  match find_seed_triangle points with
  | none => none
  | some seed =>
    let st := with_seed_triangle points seed
    some { triangles := st.triangles, halfedges := st.halfedges,
           hull := st.hull, ok := st.ok }

/-! ## Specification-side definitions

These definitions express the claims' vocabulary (distinct points,
collinearity, triple rotation, polar-angle order); they are compared
against the executable definitions above by the theorems below. -/

/-- Three points are collinear: the cross product of the two spanned
directions vanishes. -/
def Collinear3 (p q r : Point) : Prop := (q - p).perp_dot (r - p) = 0

/-- Every triple drawn from the list is collinear (this is how "all
distinct points are collinear" reads once duplicate values are
irrelevant: a triple with a repeated value is always collinear). -/
def AllCollinear (ps : List Point) : Prop :=
  ∀ p ∈ ps, ∀ q ∈ ps, ∀ r ∈ ps, Collinear3 p q r

/-- The number of distinct point values in the input. -/
def distinctCount (ps : List Point) : ℕ := ps.dedup.length

/-- The input of the crate-doc example (`src/lib.rs`) and of spec
scenario 1: the unit square `[(0,0),(1,0),(1,1),(0,1)]`. -/
def squareInput : List Point := [⟨0, 0⟩, ⟨1, 0⟩, ⟨1, 1⟩, ⟨0, 1⟩]

/-- The relation "equal up to an equivalent CCW rotation of each
triple": same size,
a multiple of three, and each consecutive index triple of `xs` is a
cyclic rotation of the corresponding triple of `ys`. -/
def tripleRotEquiv (xs ys : Array ℕ) : Prop :=
  xs.size = ys.size ∧ xs.size % 3 = 0 ∧
    ∀ t < xs.size / 3,
      (xs.getD (3 * t) 0, xs.getD (3 * t + 1) 0, xs.getD (3 * t + 2) 0) ∈
        [(ys.getD (3 * t) 0, ys.getD (3 * t + 1) 0, ys.getD (3 * t + 2) 0),
         (ys.getD (3 * t + 1) 0, ys.getD (3 * t + 2) 0, ys.getD (3 * t) 0),
         (ys.getD (3 * t + 2) 0, ys.getD (3 * t) 0, ys.getD (3 * t + 1) 0)]

instance (xs ys : Array ℕ) : Decidable (tripleRotEquiv xs ys) := by
  unfold tripleRotEquiv
  infer_instance

/-- Sector of a nonzero vector in the polar-angle order with branch cut
at direction `(-1, 0)`: polar angle exactly `π` (sector 0), angles in
`(-π, 0)` i.e. the open lower half-plane (sector 1), angle `0` (sector
2), angles in `(0, π)` i.e. the open upper half-plane (sector 3). -/
def sector (v : Point) : ℕ :=
  if v.y = 0 ∧ v.x < 0 then 0
  else if v.y < 0 then 1
  else if v.y = 0 then 2
  else 3

/-- Strict polar-angle order on nonzero vectors, trigonometry-free: the
polar angle of `v` (taken in `[-π, π)`, i.e. increasing counterclockwise
from direction `(-1, 0)`) is smaller than that of `w`.  Within one open
half-plane the angles differ by less than `π`, where the angular order
is exactly the sign of the cross product; across sectors the sector
index decides. -/
def polarLt (v w : Point) : Prop :=
  sector v < sector w ∨ (sector v = sector w ∧ 0 < v.perp_dot w)

/-- The value of `pseudo_angle?` with the NaN case defaulted; used only
to state theorems about nonzero vectors, where `pseudo_angle?` is
`some`. -/
def paVal (v : Point) : ℚ := (pseudo_angle? v).getD 0

/-- The coefficient `k = v.x / (|v.x| + |v.y|)` from the spec's
description of `pseudo_angle`. -/
def kcoef (v : Point) : ℚ := v.x / (|v.x| + |v.y|)

end Delaunator

/-! ## Supporting lemmas -/

namespace Delaunator

theorem qmin_eq_min (a b : ℚ) : qmin a b = min a b := by
  simp [qmin, min_def]

theorem qmax_eq_max (a b : ℚ) : qmax a b = max a b := by
  rcases le_or_lt b a with h | h
  · simp [qmax, h, max_eq_left h]
  · simp [qmax, not_le.mpr h, max_eq_right h.le]

theorem qabs_eq_abs (a : ℚ) : qabs a = |a| := by
  rcases lt_or_le a 0 with h | h
  · simp [qabs, h, abs_of_neg h]
  · simp [qabs, not_lt.mpr h, abs_of_nonneg h]

@[simp] theorem Point.add_x (p q : Point) : (p + q).x = p.x + q.x := rfl
@[simp] theorem Point.add_y (p q : Point) : (p + q).y = p.y + q.y := rfl
@[simp] theorem Point.sub_x (p q : Point) : (p - q).x = p.x - q.x := rfl
@[simp] theorem Point.sub_y (p q : Point) : (p - q).y = p.y - q.y := rfl
@[simp] theorem Point.smul_x (p : Point) (s : ℚ) : (p * s).x = p.x * s := rfl
@[simp] theorem Point.smul_y (p : Point) (s : ℚ) : (p * s).y = p.y * s := rfl

theorem countP_lt_range (s : ℕ) :
    ∀ n, (List.range n).countP (fun k => decide (k < s)) = min s n := by
  intro n
  induction n with
  | zero => simp
  | succ m ih =>
    rw [List.range_succ, List.countP_append, ih]
    rcases lt_or_le m s with h | h
    · simp [List.countP_cons, h]
      omega
    · simp [List.countP_cons, Nat.not_lt.mpr h]
      omega

theorem floorSqrt_eq_sqrt (n : ℕ) : floorSqrt n = Nat.sqrt n := by
  unfold floorSqrt
  have h1 : ∀ k ∈ List.range n,
      (decide ((k + 1) * (k + 1) ≤ n) = true ↔ decide (k < Nat.sqrt n) = true) := by
    intro k _
    simp only [decide_eq_true_eq]
    rw [← Nat.le_sqrt]
    omega
  rw [List.countP_congr h1, countP_lt_range]
  exact Nat.min_eq_left (Nat.sqrt_le_self n)

theorem dist_sq_nonneg (p q : Point) : 0 ≤ p.distance_squared q := by
  obtain ⟨px, py⟩ := p
  obtain ⟨qx, qy⟩ := q
  simp only [Point.distance_squared, Point.length_squared, Point.sub_x,
    Point.sub_y]
  nlinarith [mul_self_nonneg (px - qx), mul_self_nonneg (py - qy)]

theorem dist_sq_eq_zero_iff (p q : Point) :
    p.distance_squared q = 0 ↔ p = q := by
  obtain ⟨px, py⟩ := p
  obtain ⟨qx, qy⟩ := q
  simp only [Point.distance_squared, Point.length_squared, Point.sub_x,
    Point.sub_y, Point.mk.injEq]
  constructor
  · intro h
    constructor <;> nlinarith [sq_nonneg (px - qx), sq_nonneg (py - qy)]
  · rintro ⟨h1, h2⟩
    rw [h1, h2]
    ring

theorem getP_mem (ps : List Point) (i : ℕ) (h : i < ps.length) :
    getP ps i ∈ ps := by
  rw [getP, List.getD_eq_getElem?_getD, List.getElem?_eq_getElem h]
  exact List.getElem_mem h

/-- A triple with a repeated point is collinear. -/
theorem collinear3_of_repeat (p q r : Point)
    (h : p = q ∨ p = r ∨ q = r) : Collinear3 p q r := by
  obtain ⟨px, py⟩ := p
  obtain ⟨qx, qy⟩ := q
  obtain ⟨rx, ry⟩ := r
  simp only [Point.mk.injEq] at h
  unfold Collinear3
  simp only [Point.perp_dot, Point.sub_x, Point.sub_y]
  rcases h with ⟨h1, h2⟩ | ⟨h1, h2⟩ | ⟨h1, h2⟩ <;> rw [h1, h2] <;> ring

/-- Collinearity with a fixed pair of distinct points is transitive:
any three points on the line through `a ≠ b` are collinear. -/
theorem collinear3_of_line (a b p q r : Point) (hab : a ≠ b)
    (h1 : Collinear3 a b p) (h2 : Collinear3 a b q)
    (h3 : Collinear3 a b r) : Collinear3 p q r := by
  obtain ⟨ax, ay⟩ := a
  obtain ⟨bx, my⟩ := b
  obtain ⟨px, py⟩ := p
  obtain ⟨qx, qy⟩ := q
  obtain ⟨rx, ry⟩ := r
  unfold Collinear3 at h1 h2 h3 ⊢
  simp only [Point.perp_dot, Point.sub_x, Point.sub_y] at h1 h2 h3 ⊢
  have hne : bx - ax ≠ 0 ∨ my - ay ≠ 0 := by
    by_contra hc
    push_neg at hc
    exact hab (by simp only [Point.mk.injEq]; constructor <;> linarith [hc.1, hc.2])
  rcases hne with hx | hy
  · apply mul_left_cancel₀ hx
    rw [mul_zero]
    linear_combination (rx - qx) * h1 + (px - rx) * h2 + (qx - px) * h3
  · apply mul_left_cancel₀ hy
    rw [mul_zero]
    linear_combination (ry - qy) * h1 + (py - ry) * h2 + (qy - py) * h3

/-- The loop invariant of `find_closest_point` after scanning the first
`bound` input indices: an absent accumulator means every scanned point
is at distance zero; a present accumulator `(k, m)` is the first-seen
strict minimum of the positive distances scanned so far. -/
def FcpInv (p0 : Point) (ps : List Point) (bound : ℕ)
    (acc : Option (ℕ × ℚ)) : Prop :=
  match acc with
  | none => ∀ j < bound, p0.distance_squared (getP ps j) = 0
  | some (k, m) => k < bound ∧ m = p0.distance_squared (getP ps k) ∧
      0 < m ∧
      (∀ j < bound, 0 < p0.distance_squared (getP ps j) →
        m ≤ p0.distance_squared (getP ps j)) ∧
      (∀ j < k, 0 < p0.distance_squared (getP ps j) →
        m < p0.distance_squared (getP ps j))

theorem fcpStep_inv (p0 : Point) (ps : List Point) (s : ℕ) (p : Point)
    (hp : getP ps s = p) (acc : Option (ℕ × ℚ))
    (hacc : FcpInv p0 ps s acc) :
    FcpInv p0 ps (s + 1) (fcpStep p0 acc (s, p)) := by
  rcases acc with _ | ⟨k, m⟩
  · simp only [fcpStep]
    split
    · rename_i hd
      refine ⟨Nat.lt_succ_self s, by rw [hp], hd, ?_, ?_⟩
      · intro j hj hdj
        rcases Nat.lt_succ_iff_lt_or_eq.mp hj with hj | hj
        · exact absurd hdj (by rw [hacc j hj]; exact lt_irrefl 0)
        · rw [hj, hp]
      · intro j hj hdj
        exact absurd hdj (by rw [hacc j hj]; exact lt_irrefl 0)
    · rename_i hd
      intro j hj
      rcases Nat.lt_succ_iff_lt_or_eq.mp hj with hj | hj
      · exact hacc j hj
      · rw [hj, hp]
        have h0 := dist_sq_nonneg p0 p
        push_neg at hd
        linarith
  · obtain ⟨hk, hm, hpos, hmin, hfirst⟩ := hacc
    simp only [fcpStep]
    split
    · rename_i hd
      refine ⟨Nat.lt_succ_self s, by rw [hp], hd.1, ?_, ?_⟩
      · intro j hj hdj
        rcases Nat.lt_succ_iff_lt_or_eq.mp hj with hj | hj
        · have := hmin j hj hdj
          linarith [hd.2]
        · rw [hj, hp]
      · intro j hj hdj
        have := hmin j hj hdj
        linarith [hd.2]
    · rename_i hd
      refine ⟨Nat.lt_succ_of_lt hk, hm, hpos, ?_, hfirst⟩
      intro j hj hdj
      rcases Nat.lt_succ_iff_lt_or_eq.mp hj with hj | hj
      · exact hmin j hj hdj
      · rw [hj, hp] at hdj ⊢
        push_neg at hd
        exact hd hdj

theorem fcp_fold (p0 : Point) (ps : List Point) :
    ∀ (rest : List Point) (s : ℕ), rest = ps.drop s →
      ∀ acc, FcpInv p0 ps s acc →
        FcpInv p0 ps (s + rest.length)
          (List.foldl (fcpStep p0) acc (List.enumFrom s rest)) := by
  intro rest
  induction rest with
  | nil => intro s _ acc hacc; simpa using hacc
  | cons p rest' ih =>
    intro s hrest acc hacc
    have hget : ps[s]? = some p := by
      have h0 : (ps.drop s)[0]? = some p := by rw [← hrest]; simp
      rwa [List.getElem?_drop, Nat.add_zero] at h0
    have hp : getP ps s = p := by
      rw [getP, List.getD_eq_getElem?_getD, hget]
      rfl
    have hrest' : rest' = ps.drop (s + 1) := by
      have h1 := List.tail_drop ps s
      rw [← hrest] at h1
      simpa using h1
    have hstep := fcpStep_inv p0 ps s p hp acc hacc
    have := ih (s + 1) hrest' (fcpStep p0 acc (s, p)) hstep
    simp only [List.enumFrom, List.foldl_cons, List.length_cons]
    have harith : s + (rest'.length + 1) = s + 1 + rest'.length := by omega
    rw [harith]
    exact this

theorem find_closest_point_spec (ps : List Point) (p0 : Point) (k : ℕ)
    (h : find_closest_point ps p0 = some k) :
    k < ps.length ∧ 0 < p0.distance_squared (getP ps k) ∧
    (∀ j < ps.length, 0 < p0.distance_squared (getP ps j) →
      p0.distance_squared (getP ps k) ≤ p0.distance_squared (getP ps j)) ∧
    ∀ j < k, 0 < p0.distance_squared (getP ps j) →
      p0.distance_squared (getP ps k) < p0.distance_squared (getP ps j) := by
  have hinv := fcp_fold p0 ps ps 0 (by simp) none
    (by intro j hj; exact absurd hj (Nat.not_lt_zero j))
  rw [find_closest_point] at h
  rcases hfold : List.foldl (fcpStep p0) none ps.enum with _ | km
  · rw [hfold] at h
    exact absurd h (by simp)
  · rw [hfold] at h
    have hk1 : km.1 = k := by
      simpa using h
    have henum : List.enum ps = List.enumFrom 0 ps := rfl
    rw [henum] at hfold
    rw [hfold] at hinv
    obtain ⟨k', m⟩ := km
    obtain ⟨hk, hm, hpos, hmin, hfirst⟩ := hinv
    simp only at hk1
    subst hk1
    rw [Nat.zero_add] at hk hmin
    rw [hm] at hpos hmin hfirst
    exact ⟨hk, hpos, hmin, hfirst⟩

theorem find_closest_point_none (ps : List Point) (p0 : Point) :
    find_closest_point ps p0 = none ↔
      ∀ j < ps.length, p0.distance_squared (getP ps j) = 0 := by
  constructor
  · intro h
    have hinv := fcp_fold p0 ps ps 0 (by simp) none
      (by intro j hj; exact absurd hj (Nat.not_lt_zero j))
    rw [find_closest_point] at h
    rcases hfold : List.foldl (fcpStep p0) none ps.enum with _ | km
    · have henum : List.enum ps = List.enumFrom 0 ps := rfl
      rw [henum] at hfold
      rw [hfold] at hinv
      intro j hj
      exact hinv j (by omega)
    · rw [hfold] at h
      exact absurd h (by simp)
  · intro hall
    cases hfc : find_closest_point ps p0 with
    | none => rfl
    | some k =>
      obtain ⟨hk, hpos, _, _⟩ := find_closest_point_spec ps p0 k hfc
      exact absurd hpos (by rw [hall k hk]; exact lt_irrefl 0)

theorem fstStep_some (p0 p1 : Point) (i0 i1 : ℕ) (a : ℕ × ℚ)
    (x : ℕ × Point) :
    ∃ c, fstStep p0 p1 i0 i1 (some a) x = some c := by
  unfold fstStep
  split
  · exact ⟨a, rfl⟩
  · cases hr : p0.circumradius_squared? p1 x.2 with
    | none => exact ⟨a, rfl⟩
    | some r =>
      simp only
      split
      · exact ⟨(x.1, r), rfl⟩
      · exact ⟨a, rfl⟩

theorem fst_fold_some (p0 p1 : Point) (i0 i1 : ℕ)
    (l : List (ℕ × Point)) :
    ∀ a : ℕ × ℚ,
      ∃ b, List.foldl (fstStep p0 p1 i0 i1) (some a) l = some b := by
  induction l with
  | nil => exact fun a => ⟨a, rfl⟩
  | cons x xs ih =>
    intro a
    obtain ⟨c, hc⟩ := fstStep_some p0 p1 i0 i1 a x
    rw [List.foldl_cons, hc]
    exact ih c

theorem fst_fold_none_iff (p0 p1 : Point) (i0 i1 : ℕ)
    (l : List (ℕ × Point)) :
    List.foldl (fstStep p0 p1 i0 i1) none l = none ↔
      ∀ x ∈ l, x.1 ≠ i0 → x.1 ≠ i1 →
        p0.circumradius_squared? p1 x.2 = none := by
  induction l with
  | nil => simp
  | cons x xs ih =>
    rw [List.foldl_cons]
    by_cases hskip : x.1 = i0 ∨ x.1 = i1
    · have hstep : fstStep p0 p1 i0 i1 none x = none := by
        unfold fstStep
        rw [if_pos hskip]
      rw [hstep, ih]
      constructor
      · intro hall
        intro y hy hy0 hy1
        rcases List.mem_cons.mp hy with hy | hy
        · subst hy
          rcases hskip with hs | hs
          · exact absurd hs hy0
          · exact absurd hs hy1
        · exact hall y hy hy0 hy1
      · intro hall y hy hy0 hy1
        exact hall y (List.mem_cons_of_mem x hy) hy0 hy1
    · push_neg at hskip
      cases hr : p0.circumradius_squared? p1 x.2 with
      | none =>
        have hstep : fstStep p0 p1 i0 i1 none x = none := by
          unfold fstStep
          rw [if_neg (by tauto), hr]
        rw [hstep, ih]
        constructor
        · intro hall y hy hy0 hy1
          rcases List.mem_cons.mp hy with hy | hy
          · subst hy; exact hr
          · exact hall y hy hy0 hy1
        · intro hall y hy hy0 hy1
          exact hall y (List.mem_cons_of_mem x hy) hy0 hy1
      | some r =>
        have hstep : fstStep p0 p1 i0 i1 none x = some (x.1, r) := by
          unfold fstStep
          rw [if_neg (by tauto), hr]
        rw [hstep]
        constructor
        · intro hfold
          obtain ⟨b, hb⟩ := fst_fold_some p0 p1 i0 i1 xs (x.1, r)
          rw [hb] at hfold
          exact absurd hfold (by simp)
        · intro hall
          have := hall x (List.mem_cons_self x xs) hskip.1 hskip.2
          rw [this] at hr
          exact absurd hr (by simp)

theorem getP_getElem? (ps : List Point) (j : ℕ) (hj : j < ps.length) :
    ps[j]? = some (getP ps j) := by
  rw [getP, List.getD_eq_getElem?_getD, List.getElem?_eq_getElem hj]
  rfl

theorem mem_getP (ps : List Point) (p : Point) (hp : p ∈ ps) :
    ∃ j, j < ps.length ∧ getP ps j = p := by
  obtain ⟨j, hj, he⟩ := List.mem_iff_getElem.mp hp
  refine ⟨j, hj, ?_⟩
  rw [getP, List.getD_eq_getElem?_getD, List.getElem?_eq_getElem hj]
  exact he

theorem fst_fold_none_iff_idx (p0 p1 : Point) (i0 i1 : ℕ)
    (ps : List Point) :
    List.foldl (fstStep p0 p1 i0 i1) none ps.enum = none ↔
      ∀ j < ps.length, j ≠ i0 → j ≠ i1 →
        p0.circumradius_squared? p1 (getP ps j) = none := by
  rw [fst_fold_none_iff]
  constructor
  · intro hall j hj hj0 hj1
    have hmem : (j, getP ps j) ∈ ps.enum :=
      List.mem_enum_iff_getElem?.mpr (getP_getElem? ps j hj)
    exact hall (j, getP ps j) hmem hj0 hj1
  · intro hall x hx hx0 hx1
    have hx2 := List.mem_enum_iff_getElem?.mp hx
    have hlt : x.1 < ps.length := by
      by_contra hge
      rw [List.getElem?_eq_none (by omega)] at hx2
      exact absurd hx2 (by simp)
    have he : getP ps x.1 = x.2 := by
      have h3 := getP_getElem? ps x.1 hlt
      rw [h3] at hx2
      injection hx2
    rw [← he]
    exact hall x.1 hlt hx0 hx1

theorem allCollinear_of_line (ps : List Point) (a b : Point) (hab : a ≠ b)
    (h : ∀ p ∈ ps, Collinear3 a b p) : AllCollinear ps := by
  intro p hp q hq r hr
  exact collinear3_of_line a b p q r hab (h p hp) (h q hq) (h r hr)

theorem allCollinear_of_const (ps : List Point) (c : Point)
    (h : ∀ p ∈ ps, p = c) : AllCollinear ps := by
  intro p hp q hq r _
  exact collinear3_of_repeat p q r (Or.inl ((h p hp).trans (h q hq).symm))

/-- Fewer than three distinct point values force collinearity of every
triple (two of the three are always equal). -/
theorem allCollinear_of_few (ps : List Point)
    (h : distinctCount ps < 3) : AllCollinear ps := by
  intro p hp q hq r hr
  by_cases hpq : p = q
  · exact collinear3_of_repeat p q r (Or.inl hpq)
  by_cases hpr : p = r
  · exact collinear3_of_repeat p q r (Or.inr (Or.inl hpr))
  by_cases hqr : q = r
  · exact collinear3_of_repeat p q r (Or.inr (Or.inr hqr))
  exfalso
  have hcard : ps.toFinset.card = distinctCount ps := List.card_toFinset ps
  have hsub : ({p, q, r} : Finset Point) ⊆ ps.toFinset := by
    intro x hx
    simp only [Finset.mem_insert, Finset.mem_singleton] at hx
    rcases hx with h1 | h1 | h1 <;> subst h1 <;>
      exact List.mem_toFinset.mpr (by assumption)
  have h3 : ({p, q, r} : Finset Point).card = 3 := by
    rw [Finset.card_insert_of_not_mem (by simp [hpq, hpr]),
      Finset.card_insert_of_not_mem (by simp [hqr]),
      Finset.card_singleton]
  have hle := Finset.card_le_card hsub
  rw [h3, hcard] at hle
  omega

/-- Models `calc_bbox_center` is absent exactly on the empty input. -/
theorem calc_bbox_center_none_iff (ps : List Point) :
    calc_bbox_center ps = none ↔ ps = [] := by
  cases ps with
  | nil => simp [calc_bbox_center]
  | cons p rest => simp [calc_bbox_center]

/-- Models `find_seed_triangle` fails exactly when all input points are
collinear (including the degenerate cases of fewer than three distinct
points). -/
theorem find_seed_none_iff (ps : List Point) :
    find_seed_triangle ps = none ↔ AllCollinear ps := by
  constructor
  · intro h
    cases hc : calc_bbox_center ps with
    | none =>
      rw [(calc_bbox_center_none_iff ps).mp hc]
      intro p hp
      exact absurd hp (List.not_mem_nil p)
    | some c =>
      simp only [find_seed_triangle, hc] at h
      cases h0 : find_closest_point ps c with
      | none =>
        apply allCollinear_of_const ps c
        intro p hp
        obtain ⟨j, hj, hjp⟩ := mem_getP ps p hp
        have hd := (find_closest_point_none ps c).mp h0 j hj
        rw [hjp] at hd
        exact ((dist_sq_eq_zero_iff c p).mp hd).symm
      | some i0 =>
        simp only [h0] at h
        cases h1 : find_closest_point ps (getP ps i0) with
        | none =>
          apply allCollinear_of_const ps (getP ps i0)
          intro p hp
          obtain ⟨j, hj, hjp⟩ := mem_getP ps p hp
          have hd := (find_closest_point_none ps (getP ps i0)).mp h1 j hj
          rw [hjp] at hd
          exact ((dist_sq_eq_zero_iff (getP ps i0) p).mp hd).symm
        | some i1 =>
          simp only [h1] at h
          cases h2 : List.foldl
              (fstStep (getP ps i0) (getP ps i1) i0 i1) none ps.enum with
          | some ki =>
            simp only [h2] at h
            split at h <;> cases h
          | none =>
            obtain ⟨hi1len, hd1, _, _⟩ :=
              find_closest_point_spec ps (getP ps i0) i1 h1
            have hne : getP ps i0 ≠ getP ps i1 := by
              intro he
              rw [← he] at hd1
              rw [(dist_sq_eq_zero_iff (getP ps i0) (getP ps i0)).mpr rfl]
                at hd1
              exact absurd hd1 (lt_irrefl 0)
            apply allCollinear_of_line ps (getP ps i0) (getP ps i1) hne
            intro p hp
            obtain ⟨j, hj, hjp⟩ := mem_getP ps p hp
            by_cases hj0 : j = i0
            · rw [← hjp, hj0]
              exact collinear3_of_repeat _ _ _ (Or.inr (Or.inl rfl))
            by_cases hj1 : j = i1
            · rw [← hjp, hj1]
              exact collinear3_of_repeat _ _ _ (Or.inr (Or.inr rfl))
            have hrad := (fst_fold_none_iff_idx (getP ps i0) (getP ps i1)
              i0 i1 ps).mp h2 j hj hj0 hj1
            rw [Point.circumradius_squared?] at hrad
            rw [← hjp]
            unfold Collinear3
            by_contra hcross
            rw [if_neg hcross] at hrad
            exact absurd hrad (by simp)
  · intro hall
    cases hc : calc_bbox_center ps with
    | none => simp [find_seed_triangle, hc]
    | some c =>
      simp only [find_seed_triangle, hc]
      cases h0 : find_closest_point ps c with
      | none => simp only [h0]
      | some i0 =>
        cases h1 : find_closest_point ps (getP ps i0) with
        | none => simp only [h0, h1]
        | some i1 =>
          obtain ⟨hi0len, _, _, _⟩ := find_closest_point_spec ps c i0 h0
          obtain ⟨hi1len, _, _, _⟩ :=
            find_closest_point_spec ps (getP ps i0) i1 h1
          have hfold : List.foldl
              (fstStep (getP ps i0) (getP ps i1) i0 i1) none ps.enum = none := by
            apply (fst_fold_none_iff_idx (getP ps i0) (getP ps i1)
              i0 i1 ps).mpr
            intro j hj _ _
            have hcoll := hall (getP ps i0) (getP_mem ps i0 hi0len)
              (getP ps i1) (getP_mem ps i1 hi1len)
              (getP ps j) (getP_mem ps j hj)
            rw [Point.circumradius_squared?,
              if_pos (show (getP ps i1 - getP ps i0).perp_dot
                (getP ps j - getP ps i0) = 0 from hcoll)]
          simp only [h0, h1, hfold]

theorem absSum_pos (v : Point) (hv : v ≠ ⟨0, 0⟩) :
    0 < qabs v.x + qabs v.y := by
  rw [qabs_eq_abs, qabs_eq_abs]
  rcases eq_or_ne v.x 0 with hx | hx
  · rcases eq_or_ne v.y 0 with hy | hy
    · exact absurd (show v = ⟨0, 0⟩ from by cases v; simp_all) hv
    · have := abs_pos.mpr hy
      have := abs_nonneg v.x
      linarith
  · have := abs_pos.mpr hx
    have := abs_nonneg v.y
    linarith

theorem pseudo_angle_eq (v : Point) (hv : v ≠ ⟨0, 0⟩) :
    pseudo_angle? v =
      some ((if 0 < v.y then 3 - kcoef v else 1 + kcoef v) / 4) := by
  have h := absSum_pos v hv
  rw [pseudo_angle?, if_neg (by linarith), kcoef, qabs_eq_abs, qabs_eq_abs]

theorem paVal_eq (v : Point) (hv : v ≠ ⟨0, 0⟩) :
    paVal v = (if 0 < v.y then 3 - kcoef v else 1 + kcoef v) / 4 := by
  rw [paVal, pseudo_angle_eq v hv, Option.getD_some]

theorem kcoef_bounds (v : Point) (hv : v ≠ ⟨0, 0⟩) :
    -1 ≤ kcoef v ∧ kcoef v ≤ 1 ∧ (v.y ≠ 0 → -1 < kcoef v ∧ kcoef v < 1) := by
  have h := absSum_pos v hv
  rw [qabs_eq_abs, qabs_eq_abs] at h
  have hxle : v.x ≤ |v.x| + |v.y| := by
    have := le_abs_self v.x
    have := abs_nonneg v.y
    linarith
  have hxge : -(|v.x| + |v.y|) ≤ v.x := by
    have := neg_abs_le v.x
    have := abs_nonneg v.y
    linarith
  refine ⟨?_, ?_, ?_⟩
  · rw [kcoef, le_div_iff h]
    linarith
  · rw [kcoef, div_le_one h]
    exact hxle
  · intro hy
    have hay : 0 < |v.y| := abs_pos.mpr hy
    constructor
    · rw [kcoef, lt_div_iff h]
      have := neg_abs_le v.x
      linarith
    · rw [kcoef, div_lt_one h]
      have := le_abs_self v.x
      linarith

/-- Classification of a nonzero vector by sector, with the sector's
exact `paVal` range. -/
theorem sector_classify (v : Point) (hv : v ≠ ⟨0, 0⟩) :
    (sector v = 0 ∧ v.y = 0 ∧ v.x < 0 ∧ paVal v = 0) ∨
    (sector v = 1 ∧ v.y < 0 ∧ 0 < paVal v ∧ paVal v < 1 / 2) ∨
    (sector v = 2 ∧ v.y = 0 ∧ 0 < v.x ∧ paVal v = 1 / 2) ∨
    (sector v = 3 ∧ 0 < v.y ∧ 1 / 2 < paVal v ∧ paVal v < 1) := by
  have hpa := paVal_eq v hv
  rcases lt_trichotomy v.y 0 with hy | hy | hy
  · refine Or.inr (Or.inl ⟨?_, hy, ?_, ?_⟩)
    · simp [sector, hy, hy.ne]
    · rw [hpa, if_neg (by linarith)]
      have := (kcoef_bounds v hv).2.2 hy.ne
      linarith [this.1]
    · rw [hpa, if_neg (by linarith)]
      have := (kcoef_bounds v hv).2.2 hy.ne
      linarith [this.2]
  · have hx : v.x ≠ 0 := by
      intro hx
      exact hv (by cases v; simp_all)
    have hk : kcoef v = v.x / |v.x| := by
      rw [kcoef, hy, abs_zero, add_zero]
    rcases lt_or_gt_of_ne hx with hxn | hxp
    · refine Or.inl ⟨?_, hy, hxn, ?_⟩
      · simp [sector, hy, hxn]
      · rw [hpa, if_neg (by rw [hy]; exact lt_irrefl 0), hk,
          abs_of_neg hxn, div_neg, div_self hx]
        norm_num
    · refine Or.inr (Or.inr (Or.inl ⟨?_, hy, hxp, ?_⟩))
      · simp [sector, hy, not_lt.mpr hxp.le]
      · rw [hpa, if_neg (by rw [hy]; exact lt_irrefl 0), hk,
          abs_of_pos hxp, div_self hx]
        norm_num
  · refine Or.inr (Or.inr (Or.inr ⟨?_, hy, ?_, ?_⟩))
    · simp [sector, hy, not_lt.mpr hy.le, hy.ne', asymm hy]
    · rw [hpa, if_pos hy]
      have := (kcoef_bounds v hv).2.2 hy.ne'
      linarith [this.2]
    · rw [hpa, if_pos hy]
      have := (kcoef_bounds v hv).2.2 hy.ne'
      linarith [this.1]

/-- Within the open lower half-plane the pseudo-angle order is the sign
of the cross product. -/
theorem paLt_iff_cross_lower (v w : Point) (hv : v.y < 0) (hw : w.y < 0) :
    paVal v < paVal w ↔ 0 < v.perp_dot w := by
  have hv0 : v ≠ ⟨0, 0⟩ := by intro h; rw [h] at hv; exact absurd hv (by norm_num)
  have hw0 : w ≠ ⟨0, 0⟩ := by intro h; rw [h] at hw; exact absurd hw (by norm_num)
  have hAv : 0 < |v.x| + |v.y| := by
    have := absSum_pos v hv0; rwa [qabs_eq_abs, qabs_eq_abs] at this
  have hAw : 0 < |w.x| + |w.y| := by
    have := absSum_pos w hw0; rwa [qabs_eq_abs, qabs_eq_abs] at this
  rw [paVal_eq v hv0, paVal_eq w hw0, if_neg (by linarith), if_neg (by linarith)]
  have step1 : (1 + kcoef v) / 4 < (1 + kcoef w) / 4 ↔ kcoef v < kcoef w := by
    constructor <;> intro h <;> linarith
  rw [step1, kcoef, kcoef, div_lt_div_iff hAv hAw, Point.perp_dot,
    abs_of_neg hv, abs_of_neg hw]
  rcases le_or_lt 0 v.x with h1 | h1 <;> rcases le_or_lt 0 w.x with h2 | h2
  · rw [abs_of_nonneg h1, abs_of_nonneg h2]
    constructor <;> intro h <;> nlinarith
  · rw [abs_of_nonneg h1, abs_of_neg h2]
    constructor <;> intro h <;> nlinarith
  · rw [abs_of_neg h1, abs_of_nonneg h2]
    constructor <;> intro h <;> nlinarith
  · rw [abs_of_neg h1, abs_of_neg h2]
    constructor <;> intro h <;> nlinarith

/-- Within the open upper half-plane the pseudo-angle order is the sign
of the cross product. -/
theorem paLt_iff_cross_upper (v w : Point) (hv : 0 < v.y) (hw : 0 < w.y) :
    paVal v < paVal w ↔ 0 < v.perp_dot w := by
  have hv0 : v ≠ ⟨0, 0⟩ := by intro h; rw [h] at hv; exact absurd hv (by norm_num)
  have hw0 : w ≠ ⟨0, 0⟩ := by intro h; rw [h] at hw; exact absurd hw (by norm_num)
  have hAv : 0 < |v.x| + |v.y| := by
    have := absSum_pos v hv0; rwa [qabs_eq_abs, qabs_eq_abs] at this
  have hAw : 0 < |w.x| + |w.y| := by
    have := absSum_pos w hw0; rwa [qabs_eq_abs, qabs_eq_abs] at this
  rw [paVal_eq v hv0, paVal_eq w hw0, if_pos hv, if_pos hw]
  have step1 : (3 - kcoef v) / 4 < (3 - kcoef w) / 4 ↔ kcoef w < kcoef v := by
    constructor <;> intro h <;> linarith
  rw [step1, kcoef, kcoef, div_lt_div_iff hAw hAv, Point.perp_dot,
    abs_of_pos hv, abs_of_pos hw]
  rcases le_or_lt 0 v.x with h1 | h1 <;> rcases le_or_lt 0 w.x with h2 | h2
  · rw [abs_of_nonneg h1, abs_of_nonneg h2]
    constructor <;> intro h <;> nlinarith
  · rw [abs_of_nonneg h1, abs_of_neg h2]
    constructor <;> intro h <;> nlinarith
  · rw [abs_of_neg h1, abs_of_nonneg h2]
    constructor <;> intro h <;> nlinarith
  · rw [abs_of_neg h1, abs_of_neg h2]
    constructor <;> intro h <;> nlinarith

/-- The pseudo-angle comparison agrees with the polar-angle order on
nonzero vectors. -/
theorem paVal_lt_iff_polarLt (v w : Point) (hv : v ≠ ⟨0, 0⟩)
    (hw : w ≠ ⟨0, 0⟩) : paVal v < paVal w ↔ polarLt v w := by
  rcases sector_classify v hv with ⟨hs, hy, hx, hp⟩ | ⟨hs, hy, hp1, hp2⟩ |
    ⟨hs, hy, hx, hp⟩ | ⟨hs, hy, hp1, hp2⟩ <;>
  rcases sector_classify w hw with ⟨gs, gy, gx, gp⟩ | ⟨gs, gy, gp1, gp2⟩ |
    ⟨gs, gy, gx, gp⟩ | ⟨gs, gy, gp1, gp2⟩
  · exact iff_of_false (by rw [hp, gp]; exact lt_irrefl 0)
      (by simp [polarLt, hs, gs, Point.perp_dot, hy, gy])
  · exact iff_of_true (by rw [hp]; exact gp1)
      (Or.inl (by rw [hs, gs]; norm_num))
  · exact iff_of_true (by rw [hp, gp]; norm_num)
      (Or.inl (by rw [hs, gs]; norm_num))
  · exact iff_of_true (by rw [hp]; linarith)
      (Or.inl (by rw [hs, gs]; norm_num))
  · exact iff_of_false (by rw [gp]; linarith)
      (by simp [polarLt, hs, gs])
  · rw [paLt_iff_cross_lower v w hy gy]
    constructor
    · intro h
      exact Or.inr ⟨by rw [hs, gs], h⟩
    · intro h
      have h2 : sector v < sector w ∨
          (sector v = sector w ∧ 0 < v.perp_dot w) := h
      rcases h2 with h2 | ⟨_, h2⟩
      · rw [hs, gs] at h2
        exact absurd h2 (lt_irrefl 1)
      · exact h2
  · exact iff_of_true (by rw [gp]; exact hp2)
      (Or.inl (by rw [hs, gs]; norm_num))
  · exact iff_of_true (by linarith)
      (Or.inl (by rw [hs, gs]; norm_num))
  · exact iff_of_false (by rw [hp, gp]; norm_num)
      (by simp [polarLt, hs, gs])
  · exact iff_of_false (by rw [hp]; linarith)
      (by simp [polarLt, hs, gs])
  · exact iff_of_false (by rw [hp, gp]; exact lt_irrefl _)
      (by simp [polarLt, hs, gs, Point.perp_dot, hy, gy])
  · exact iff_of_true (by rw [hp]; linarith)
      (Or.inl (by rw [hs, gs]; norm_num))
  · exact iff_of_false (by rw [gp]; linarith)
      (by simp [polarLt, hs, gs])
  · exact iff_of_false (by linarith)
      (by simp [polarLt, hs, gs])
  · exact iff_of_false (by rw [gp]; linarith)
      (by simp [polarLt, hs, gs])
  · rw [paLt_iff_cross_upper v w hy gy]
    constructor
    · intro h
      exact Or.inr ⟨by rw [hs, gs], h⟩
    · intro h
      have h2 : sector v < sector w ∨
          (sector v = sector w ∧ 0 < v.perp_dot w) := h
      rcases h2 with h2 | ⟨_, h2⟩
      · rw [hs, gs] at h2
        exact absurd h2 (lt_irrefl 3)
      · exact h2

end Delaunator

/-! ## Claim theorems -/

namespace Delaunator

/-- Claim **C10**: sentinel round-trip of the packed optional index.  For
every `usize` value `n < usize::max_value()`, `From<usize>` followed by
`get()` yields `Some(n)`; converting `usize::max_value()` itself
silently yields the absent value (`get()` is `None`, `is_none()` holds)
rather than a present value or a panic. -/
theorem optionIndex_roundtrip (n : ℕ) (h : n < usizeMax) :
    (OptionIndex.fromUsize n).get = some n ∧
    (OptionIndex.fromUsize usizeMax).get = none ∧
    (OptionIndex.fromUsize usizeMax).is_none = true := by
  refine ⟨?_, ?_, ?_⟩
  · simp [OptionIndex.fromUsize, OptionIndex.get, Nat.ne_of_lt h]
  · simp [OptionIndex.fromUsize, OptionIndex.get]
  · simp [OptionIndex.fromUsize, OptionIndex.is_none]

/-- Witness for `optionIndex_roundtrip` at `n = 3`. -/
theorem optionIndex_roundtrip_witness :
    3 < usizeMax ∧ (OptionIndex.fromUsize 3).get = some 3 :=
  ⟨by norm_num [usizeMax], (optionIndex_roundtrip 3 (by norm_num [usizeMax])).1⟩

/-- Claim **C5** (counterexample): on the square input the builder returns
`triangles = [0,1,2, 2,3,0]` and `hull = [2,3,0,1]` (counter-clockwise,
matching the crate's orientation contract), not the values
`triangles = [0,2,1, 0,3,2]` / `hull = [0,3,2,1]` claimed from the stale
`src/lib.rs` doc example (those are the mirror-orientation outputs of
the upstream crate): the computed triples are not CCW rotations of the
claimed ones and the computed hull differs from the claimed hull. -/
theorem square_claim_false :
    Triangulation.new squareInput =
      some { triangles := #[0, 1, 2, 2, 3, 0],
             halfedges := #[none, none, some 5, none, none, some 2],
             hull := #[2, 3, 0, 1], ok := true } ∧
    ¬ (tripleRotEquiv #[0, 1, 2, 2, 3, 0] #[0, 2, 1, 0, 3, 2] ∧
        (#[2, 3, 0, 1] : Array ℕ) = #[0, 3, 2, 1]) := by
  constructor
  · set_option maxRecDepth 10000 in decide
  · decide

/-- The in-circle determinant equals the circumcircle defect
`(R² - |p - o|²)` scaled by the (doubled-area) orientation factor
`(b - a) × (c - a)`; valid whenever `a, b, c` are not collinear. -/
theorem inCircleDet_eq (p a b c : Point)
    (hD : (b - a).perp_dot (c - a) ≠ 0) :
    inCircleDet p a b c =
      (a.circumradius_squared b c -
        p.distance_squared (a.circumcenter b c)) *
        (b - a).perp_dot (c - a) := by
  obtain ⟨px, py⟩ := p
  obtain ⟨ax, ay⟩ := a
  obtain ⟨bx, my⟩ := b
  obtain ⟨cx, cy⟩ := c
  simp only [Point.perp_dot, Point.sub_x, Point.sub_y] at hD
  simp only [inCircleDet, Point.circumradius_squared, Point.circumcenter,
    Point.circumdelta, Point.distance_squared, Point.length_squared,
    Point.perp, Point.perp_dot, Point.add_x, Point.add_y, Point.sub_x,
    Point.sub_y, Point.smul_x, Point.smul_y]
  field_simp
  ring

/-- Claim **C6**: for every `p` and CCW triple `(a, b, c)` (positive doubled
signed area), `is_in_circle(p; a, b, c)` returns `true` exactly when `p`
lies strictly inside the circle through `a`, `b`, `c` — strictly closer
to the circumcenter than the circumradius; in particular a vanishing
determinant (`p` on the circle) yields `false`. -/
theorem is_in_circle_iff (p a b c : Point)
    (hccw : 0 < (b - a).perp_dot (c - a)) :
    (p.is_in_circle a b c = true ↔
      p.distance_squared (a.circumcenter b c) < a.circumradius_squared b c) := by
  have key := inCircleDet_eq p a b c (ne_of_gt hccw)
  have hbool : (p.is_in_circle a b c = true) ↔ 0 < inCircleDet p a b c := by
    simp [Point.is_in_circle]
  rw [hbool, key]
  constructor
  · intro h
    by_contra hneg
    push_neg at hneg
    nlinarith
  · intro h
    have h2 : 0 < a.circumradius_squared b c -
        p.distance_squared (a.circumcenter b c) := by linarith
    exact mul_pos h2 hccw

/-- Witness for `is_in_circle_iff`: the CCW triple `(0,0), (1,0), (0,1)`
with query point `(1,1)`, which lies exactly on the circumcircle. -/
theorem is_in_circle_iff_witness :
    0 < ((⟨1, 0⟩ : Point) - ⟨0, 0⟩).perp_dot ((⟨0, 1⟩ : Point) - ⟨0, 0⟩) ∧
    ((⟨1, 1⟩ : Point).is_in_circle ⟨0, 0⟩ ⟨1, 0⟩ ⟨0, 1⟩ = true ↔
      (⟨1, 1⟩ : Point).distance_squared
          ((⟨0, 0⟩ : Point).circumcenter ⟨1, 0⟩ ⟨0, 1⟩) <
        (⟨0, 0⟩ : Point).circumradius_squared ⟨1, 0⟩ ⟨0, 1⟩) :=
  ⟨by decide, is_in_circle_iff ⟨1, 1⟩ ⟨0, 0⟩ ⟨1, 0⟩ ⟨0, 1⟩ (by decide)⟩

/-- Claim **C1**: `Triangulation::new` returns the absent variant exactly when
the input has fewer than three distinct points or all (distinct) points
are collinear — equivalently, exactly when seed selection finds no
finite minimum circumradius (`find_seed_triangle` fails); on every other
input it returns a present triangulation. -/
theorem new_none_iff (ps : List Point) :
    Triangulation.new ps = none ↔
      (distinctCount ps < 3 ∨ AllCollinear ps) := by
  have hnew : Triangulation.new ps = none ↔
      find_seed_triangle ps = none := by
    unfold Triangulation.new
    cases find_seed_triangle ps <;> simp
  rw [hnew, find_seed_none_iff]
  constructor
  · exact Or.inr
  · rintro (h | h)
    · exact allCollinear_of_few ps h
    · exact h

/-- The first component of a successful seed is the result of
`find_closest_point` from the bounding-box center (the final CCW swap
touches only the second and third components). -/
theorem find_seed_i0 (ps : List Point) (s : ℕ × ℕ × ℕ)
    (h : find_seed_triangle ps = some s) :
    ∃ c, calc_bbox_center ps = some c ∧
      find_closest_point ps c = some s.1 := by
  unfold find_seed_triangle at h
  cases hc : calc_bbox_center ps with
  | none => rw [hc] at h; cases h
  | some c =>
    rw [hc] at h
    cases h0 : find_closest_point ps c with
    | none => simp only [h0] at h; cases h
    | some i0 =>
      simp only [h0] at h
      refine ⟨c, rfl, ?_⟩
      cases h1 : find_closest_point ps (getP ps i0) with
      | none => simp only [h1] at h; cases h
      | some i1 =>
        simp only [h1] at h
        cases h2 : List.foldl
            (fstStep (getP ps i0) (getP ps i1) i0 i1) none ps.enum with
        | none => simp only [h2] at h; cases h
        | some ki =>
          simp only [h2] at h
          split at h <;> (cases h; exact h0)

/-- Claim **C7**: on every input where seed selection succeeds, the seed point
`i0` is the index of the point minimizing squared distance from the
bounding-box center `c` among points at positive distance; points at
distance 0 (exactly the duplicates of `c`, which exist only when `c`
coincides with an input point) are ignored; ties are broken by first
occurrence (every earlier positive-distance index is strictly
farther). -/
theorem seed_i0_argmin (ps : List Point) (i0 i1 i2 : ℕ)
    (h : find_seed_triangle ps = some (i0, i1, i2)) :
    ∃ c, calc_bbox_center ps = some c ∧
      i0 < ps.length ∧ 0 < c.distance_squared (getP ps i0) ∧
      (∀ j < ps.length, 0 < c.distance_squared (getP ps j) →
        c.distance_squared (getP ps i0) ≤ c.distance_squared (getP ps j)) ∧
      (∀ j < i0, 0 < c.distance_squared (getP ps j) →
        c.distance_squared (getP ps i0) < c.distance_squared (getP ps j)) ∧
      (∀ j < ps.length, c.distance_squared (getP ps j) = 0 →
        getP ps j = c) := by
  obtain ⟨c, hc, h0⟩ := find_seed_i0 ps (i0, i1, i2) h
  obtain ⟨hlen, hpos, hmin, hfirst⟩ := find_closest_point_spec ps c i0 h0
  exact ⟨c, hc, hlen, hpos, hmin, hfirst,
    fun j _ hd => ((dist_sq_eq_zero_iff c (getP ps j)).mp hd).symm⟩

/-- Witness for `seed_i0_argmin` on the square input, whose seed is
`(0, 1, 2)`. -/
theorem seed_i0_argmin_witness :
    find_seed_triangle squareInput = some (0, 1, 2) ∧
    ∃ c, calc_bbox_center squareInput = some c ∧
      0 < squareInput.length ∧
      0 < c.distance_squared (getP squareInput 0) ∧
      (∀ j < squareInput.length,
        0 < c.distance_squared (getP squareInput j) →
        c.distance_squared (getP squareInput 0) ≤
          c.distance_squared (getP squareInput j)) ∧
      (∀ j < 0, 0 < c.distance_squared (getP squareInput j) →
        c.distance_squared (getP squareInput 0) <
          c.distance_squared (getP squareInput j)) ∧
      (∀ j < squareInput.length,
        c.distance_squared (getP squareInput j) = 0 →
        getP squareInput j = c) :=
  ⟨by decide, seed_i0_argmin squareInput 0 1 2 (by decide)⟩

/-- Claim **C8**: for every nonzero finite vector `v`, `pseudo_angle(v)`
equals `(3 - k)/4` if `v.y > 0` and `(1 + k)/4` otherwise, where
`k = v.x / (|v.x| + |v.y|)`; its value lies in `[0, 1)`; and it is
monotone in the polar angle of `v`: against any other nonzero vector
`w`, the pseudo-angle comparison coincides with the polar-angle order
(branch cut at direction `(-1, 0)`). -/
theorem pseudo_angle_spec (v w : Point) (hv : v ≠ ⟨0, 0⟩)
    (hw : w ≠ ⟨0, 0⟩) :
    pseudo_angle? v =
        some ((if 0 < v.y then 3 - kcoef v else 1 + kcoef v) / 4) ∧
    0 ≤ paVal v ∧ paVal v < 1 ∧
    (paVal v < paVal w ↔ polarLt v w) := by
  refine ⟨pseudo_angle_eq v hv, ?_, ?_, paVal_lt_iff_polarLt v w hv hw⟩
  · rcases sector_classify v hv with ⟨_, _, _, hp⟩ | ⟨_, _, hp1, _⟩ |
      ⟨_, _, _, hp⟩ | ⟨_, _, hp1, _⟩
    · rw [hp]
    · linarith
    · rw [hp]; norm_num
    · linarith
  · rcases sector_classify v hv with ⟨_, _, _, hp⟩ | ⟨_, _, _, hp2⟩ |
      ⟨_, _, _, hp⟩ | ⟨_, _, _, hp2⟩
    · rw [hp]; norm_num
    · linarith
    · rw [hp]; norm_num
    · linarith

/-- Witness for `pseudo_angle_spec` at `v = (1,0)`, `w = (0,1)`. -/
theorem pseudo_angle_spec_witness :
    ((⟨1, 0⟩ : Point) ≠ ⟨0, 0⟩) ∧ ((⟨0, 1⟩ : Point) ≠ ⟨0, 0⟩) ∧
    (pseudo_angle? ⟨1, 0⟩ =
        some ((if 0 < (⟨1, 0⟩ : Point).y then 3 - kcoef ⟨1, 0⟩
          else 1 + kcoef ⟨1, 0⟩) / 4) ∧
      0 ≤ paVal ⟨1, 0⟩ ∧ paVal ⟨1, 0⟩ < 1 ∧
      (paVal ⟨1, 0⟩ < paVal ⟨0, 1⟩ ↔ polarLt ⟨1, 0⟩ ⟨0, 1⟩)) :=
  ⟨by decide, by decide,
    pseudo_angle_spec ⟨1, 0⟩ ⟨0, 1⟩ (by decide) (by decide)⟩

/-- Claim **C5** (amended): for the input `[(0,0),(1,0),(1,1),(0,1)]`,
`Triangulation::new` returns a present result whose `triangles` equals
`[0,1,2, 2,3,0]` (each triple the CCW orientation of the corresponding
doc-comment triple), whose `hull` equals `[2,3,0,1]` (the claimed hull
cycle traversed in CCW order), and whose execution hits no panic path
(`ok`). -/
theorem square_output :
    (Triangulation.new squareInput).map
        (fun t => (t.triangles, t.hull, t.ok)) =
      some (#[0, 1, 2, 2, 3, 0], #[2, 3, 0, 1], true) := by
  set_option maxRecDepth 10000 in decide

end Delaunator
